import Mathlib

/-!
A verification model of `web_crawler_app.py`, an external-links web crawler.
The crawl core (URL classification, link extraction and dispatch, and the
frontier/visited crawl loop) is embedded as Lean functions and a step
relation.  Network fetching and HTML anchor extraction are modelled by an
oracle of type `String → FetchOutcome` whose success case carries the
response content type and the list of `urljoin`-resolved anchor URLs of the
page, in document order.  Strings are handled through their character
lists; the model of `urllib.parse.urlparse` assumes URLs free of ASCII
control characters, and case folding (`str.lower`) is modelled on ASCII
text as used by the crawler.
-/

namespace Crawler

/-- Characters that may appear in a URL scheme (letters, digits, `+`, `-`,
`.`), as accepted by `urllib.parse`. -/
def isSchemeChar (c : Char) : Bool :=
  c.isAlpha || c.isDigit || c = '+' || c = '-' || c = '.'

/-- Split a character list at the first occurrence of `c`; `none` when `c`
is absent. -/
def splitAtFirst (c : Char) : List Char → Option (List Char × List Char)
  | [] => none
  | x :: xs =>
    if x = c then some ([], xs)
    else
      match splitAtFirst c xs with
      | none => none
      | some (a, b) => some (x :: a, b)

/-- Split at the first occurrence of `c`, returning the whole list and `[]`
when `c` is absent (Python `str.split(c, 1)` as used by `urlsplit`). -/
def splitOnce (c : Char) (l : List Char) : List Char × List Char :=
  match splitAtFirst c l with
  | none => (l, [])
  | some (a, b) => (a, b)

/-- Scheme extraction of `urllib.parse.urlsplit`: when the text before the
first colon is a nonempty run of scheme characters starting with a letter,
it is the scheme (lower-cased) and the rest follows the colon; otherwise
there is no scheme and the input is left unchanged. -/
def schemeSplit (l : List Char) : List Char × List Char :=
  match splitAtFirst ':' l with
  | none => ([], l)
  | some (a, b) =>
    if !a.isEmpty && (a.headD ' ').isAlpha && a.all isSchemeChar then
      (a.map Char.toLower, b)
    else ([], l)

/-- Characters ending the network-location component of a URL. -/
def isNetlocDelim (c : Char) : Bool := c = '/' || c = '?' || c = '#'

/-- Netloc extraction of `urlsplit`: after a leading `//`, the netloc runs
to the next `/`, `?` or `#`; without a leading `//` there is no netloc. -/
def netlocSplit (l : List Char) : List Char × List Char :=
  match l with
  | '/' :: '/' :: rest =>
    (rest.takeWhile (fun c => !isNetlocDelim c),
     rest.dropWhile (fun c => !isNetlocDelim c))
  | _ => ([], l)

/-- Parameter split of `urllib.parse.urlparse` (its `_splitparams`): when
the last path segment holds a `;`, everything after the first such `;` is
the params component. -/
def splitParams (p : List Char) : List Char × List Char :=
  if p.contains ';' then
    if p.contains '/' then
      let seg := (p.reverse.takeWhile (fun c => !(c == '/'))).reverse
      if seg.contains ';' then
        let (a, b) := splitOnce ';' seg
        (p.take (p.length - seg.length) ++ a, b)
      else (p, [])
    else splitOnce ';' p
  else (p, [])

/-- Result of `urllib.parse.urlparse`. -/
structure UrlParts where
  scheme : String
  netloc : String
  path : String
  params : String
  query : String
  fragment : String

/-- Model of `urllib.parse.urlparse`: scheme, then netloc after `//`, then
the fragment after the first `#`, then the query after the first `?`, then
params split out of the last path segment. -/
def urlparse (url : String) : UrlParts :=
  let (sch, r1) := schemeSplit url.data
  let (net, r2) := netlocSplit r1
  let (r3, frag) := splitOnce '#' r2
  let (pq, qry) := splitOnce '?' r3
  let (pth, prm) := splitParams pq
  { scheme := ⟨sch⟩, netloc := ⟨net⟩, path := ⟨pth⟩,
    params := ⟨prm⟩, query := ⟨qry⟩, fragment := ⟨frag⟩ }

/-- ASCII lower-casing of a string, as Python `str.lower` acts on ASCII. -/
def lowerStr (s : String) : String := ⟨s.data.map Char.toLower⟩

/-- Test whether `s` ends with `post` (Python `str.endswith`). -/
def strEndsWith (s post : String) : Bool := post.data.isSuffixOf s.data

/-- Test whether `s` starts with `p` (Python `str.startswith`). -/
def strStartsWith (s p : String) : Bool := p.data.isPrefixOf s.data

/-- Auxiliary scan for substring containment. -/
def containsFrom (pat : List Char) : List Char → Bool
  | [] => pat.isEmpty
  | c :: rest => pat.isPrefixOf (c :: rest) || containsFrom pat rest

/-- Python substring containment, `pat in s`. -/
def strContainsSub (s pat : String) : Bool := containsFrom pat.data s.data

/-- File extensions the crawler skips (`SKIP_EXTENSIONS`). -/
def SKIP_EXTENSIONS : List String :=
  [".pdf", ".jpg", ".jpeg", ".png", ".gif", ".mp4", ".zip", ".doc",
   ".docx", ".xls", ".xlsx"]

/-- Check if the URL points to a file type we want to skip
(`should_skip_url`). -/
def should_skip_url (url : String) : Bool :=
  let path := lowerStr (urlparse url).path
  SKIP_EXTENSIONS.any (fun ext => strEndsWith path ext)

/-- Check if the URL is a valid landing page: URLs containing `#` or
`et_blog` are excluded (`is_valid_landing_page`). -/
def is_valid_landing_page (url : String) : Bool :=
  if strContainsSub url "#" || strContainsSub url "et_blog" then false
  else true

theorem containsFrom_iff (pat l : List Char) :
    containsFrom pat l = true ↔ pat <:+: l := by
  induction l with
  | nil =>
    simp only [containsFrom, List.infix_nil, List.isEmpty_iff]
  | cons c rest ih =>
    simp only [containsFrom, Bool.or_eq_true, List.isPrefixOf_iff_prefix, ih,
      List.infix_cons_iff]

theorem strContainsSub_iff (s pat : String) :
    strContainsSub s pat = true ↔ pat.data <:+: s.data :=
  containsFrom_iff pat.data s.data

theorem strEndsWith_iff (s post : String) :
    strEndsWith s post = true ↔ post.data <:+ s.data := by
  simp [strEndsWith]

theorem singleton_infix_iff {α : Type} (a : α) (l : List α) :
    [a] <:+: l ↔ a ∈ l := by
  constructor
  · intro h
    exact h.subset (by simp)
  · intro h
    obtain ⟨s, t, rfl⟩ := List.append_of_mem h
    exact ⟨s, t, by simp⟩

/-- C7: `should_skip_url` holds exactly when the URL's path component,
lower-cased, ends with one of the fixed skip extensions; the query and
fragment parts play no role, and in particular both
`https://x.com/a.PDF` and `https://x.com/a.pdf?x=1` are skipped. -/
theorem should_skip_url_ext_iff :
    (∀ url : String, should_skip_url url = true ↔
      ∃ ext ∈ SKIP_EXTENSIONS, ext.data <:+ (lowerStr (urlparse url).path).data) ∧
    should_skip_url "https://x.com/a.PDF" = true ∧
    should_skip_url "https://x.com/a.pdf?x=1" = true := by
  refine ⟨fun url => ?_, by decide, by decide⟩
  simp [should_skip_url, List.any_eq_true, strEndsWith_iff]

/-- C8: `is_valid_landing_page` is false exactly when the character `#` or
the substring `et_blog` occurs somewhere in the literal URL string, and the
three spec examples evaluate accordingly. -/
theorem is_valid_landing_page_char_iff :
    (∀ url : String, is_valid_landing_page url = false ↔
      ('#' ∈ url.data ∨ "et_blog".data <:+: url.data)) ∧
    is_valid_landing_page "https://x.com/a#section" = false ∧
    is_valid_landing_page "https://x.com/et_blog/post" = false ∧
    is_valid_landing_page "https://x.com/a" = true := by
  refine ⟨fun url => ?_, by decide, by decide, by decide⟩
  have h1 := strContainsSub_iff url "#"
  have h2 := strContainsSub_iff url "et_blog"
  have h3 : ("#" : String).data = ['#'] := rfl
  rw [h3, singleton_infix_iff] at h1
  have h4 : is_valid_landing_page url = false ↔
      (strContainsSub url "#" = true ∨ strContainsSub url "et_blog" = true) := by
    unfold is_valid_landing_page
    cases hb1 : strContainsSub url "#" <;>
      cases hb2 : strContainsSub url "et_blog" <;> simp
  rw [h4, h1, h2]

/-- Outcome of one network fetch, as observed by `get_links`: `failure`
covers every `requests.RequestException` (network error, timeout, or the
non-2xx statuses turned into exceptions by `raise_for_status`); `success`
carries the declared content type and the `urljoin`-resolved URLs of the
page's href anchors in document order. -/
inductive FetchOutcome where
  | failure : FetchOutcome
  | success : String → List String → FetchOutcome
deriving DecidableEq

/-- Dispatch of one resolved anchor URL inside the extraction loop of
`get_links`: skip-extension URLs and invalid landing pages are dropped,
same-netloc URLs go into the internal set, other URLs starting with
`http` are appended with their source page to the external-links list. -/
def processLink (pageUrl baseUrl : String)
    (acc : Finset String × List (String × String)) (fullUrl : String) :
    Finset String × List (String × String) :=
  if should_skip_url fullUrl then acc
  else if !is_valid_landing_page fullUrl then acc
  else if (urlparse fullUrl).netloc = (urlparse baseUrl).netloc then
    (insert fullUrl acc.1, acc.2)
  else if strStartsWith fullUrl "http" then
    (acc.1, acc.2 ++ [(fullUrl, pageUrl)])
  else acc

/-- Fetch all links from a page (`get_links`): a fetch failure or a
non-HTML content type yields no links; otherwise every resolved anchor is
dispatched by `processLink`.  The first component is the returned set of
internal links, the second the external-link records this call appends to
the global accumulator. -/
def get_links (fetchUrl : String → FetchOutcome) (url baseUrl : String) :
    Finset String × List (String × String) :=
  match fetchUrl url with
  | FetchOutcome.failure => (∅, [])
  | FetchOutcome.success ct hrefs =>
    if !strContainsSub ct "text/html" then (∅, [])
    else hrefs.foldl (processLink url baseUrl) (∅, [])

/-- Classification of one resolved URL, written from the spec's words:
Rejected when `shouldSkip` holds or `isValidLandingPage` fails; else
Internal when the URL's host equals the base host; else External when the
URL starts with `http`; else Rejected. -/
inductive Classification where
  | internalUrl : Classification
  | externalUrl : Classification
  | rejected : Classification

/-- Spec-side classifier `classify(url, baseHost)`, following the spec's
words, to be compared with the source-side dispatch `processLink`. -/
def classifySpec (url : String) (baseHost : String) : Classification :=
  if should_skip_url url || !is_valid_landing_page url then
    Classification.rejected
  else if (urlparse url).netloc = baseHost then Classification.internalUrl
  else if strStartsWith url "http" then Classification.externalUrl
  else Classification.rejected

/-- C6: the per-URL dispatch of `get_links` refines the spec's classifier:
a rejected URL leaves the accumulator unchanged, an internal URL is added
to the internal set (a set, hence deduplicated within the page), and an
external URL is appended as the pair `(resolvedUrl, pageUrl)` to the
external list without deduplication. -/
theorem processLink_refines_classify (pageUrl baseUrl fullUrl : String)
    (acc : Finset String × List (String × String)) :
    processLink pageUrl baseUrl acc fullUrl =
      match classifySpec fullUrl (urlparse baseUrl).netloc with
      | Classification.rejected => acc
      | Classification.internalUrl => (insert fullUrl acc.1, acc.2)
      | Classification.externalUrl => (acc.1, acc.2 ++ [(fullUrl, pageUrl)]) := by
  unfold processLink classifySpec
  cases hs : should_skip_url fullUrl <;>
    cases hv : is_valid_landing_page fullUrl <;>
      by_cases hn : (urlparse fullUrl).netloc = (urlparse baseUrl).netloc <;>
        cases hh : strStartsWith fullUrl "http" <;>
          simp [hs, hv, hn, hh]

/-- State of the crawl loop of `crawl_website`, together with a ghost
trace `fetched_urls` recording, in order, every URL on which `get_links`
is invoked. -/
structure CrawlState where
  urls_to_visit : Finset String
  visited_urls : Finset String
  external_links : List (String × String)
  total_urls_discovered : Nat
  fetched_urls : List String

/-- Internal links newly enqueued when visiting `u`: the internal links of
the page minus the visited set (which already holds `u`) and minus the
already-popped frontier, as in `new_links - visited_urls - urls_to_visit`. -/
def new_internal_links (fetchUrl : String → FetchOutcome) (start_url : String)
    (s : CrawlState) (u : String) : Finset String :=
  ((get_links fetchUrl u start_url).1 \ insert u s.visited_urls) \
    s.urls_to_visit.erase u

/-- Effect of one loop iteration of `crawl_website` on a URL `u` popped
from the frontier and not yet visited: `u` is marked visited and fetched,
newly discovered internal links not already visited or queued are added to
the frontier and counted, and the external records of the page are
appended. -/
def visitStep (fetchUrl : String → FetchOutcome) (start_url : String)
    (s : CrawlState) (u : String) : CrawlState :=
  { urls_to_visit := s.urls_to_visit.erase u ∪ new_internal_links fetchUrl start_url s u
    visited_urls := insert u s.visited_urls
    external_links := s.external_links ++ (get_links fetchUrl u start_url).2
    total_urls_discovered :=
      s.total_urls_discovered + (new_internal_links fetchUrl start_url s u).card
    fetched_urls := s.fetched_urls ++ [u] }

/-- One iteration of the `while urls_to_visit` loop of `crawl_website`:
an arbitrary URL `u` is popped from the frontier; if it is unvisited the
iteration visits it (`visitStep`), otherwise the iteration only removes it
from the frontier. -/
inductive Step (fetchUrl : String → FetchOutcome) (start_url : String) :
    CrawlState → CrawlState → Prop
  | visit (s : CrawlState) (u : String) (hu : u ∈ s.urls_to_visit)
      (hnv : u ∉ s.visited_urls) :
      Step fetchUrl start_url s (visitStep fetchUrl start_url s u)
  | skip (s : CrawlState) (u : String) (hu : u ∈ s.urls_to_visit)
      (hv : u ∈ s.visited_urls) :
      Step fetchUrl start_url s { s with urls_to_visit := s.urls_to_visit.erase u }

/-- State at entry of the crawl loop: the frontier holds the seed, the
visited set and the external-links list were cleared by the caller, and
`total_urls_discovered` is the frontier's size, 1. -/
def initState (start_url : String) : CrawlState :=
  { urls_to_visit := {start_url}
    visited_urls := ∅
    external_links := []
    total_urls_discovered := 1
    fetched_urls := [] }

/-- States the crawl loop can reach from its entry state. -/
def Reachable (fetchUrl : String → FetchOutcome) (start_url : String)
    (s : CrawlState) : Prop :=
  Relation.ReflTransGen (Step fetchUrl start_url) (initState start_url) s

/-- Oracle of a host that never answers: every fetch fails. -/
def fetchNone : String → FetchOutcome := fun _ => FetchOutcome.failure

theorem mem_new_internal {f : String → FetchOutcome} {st : String}
    {s : CrawlState} {u x : String} (hx : x ∈ new_internal_links f st s u) :
    x ∈ (get_links f u st).1 ∧ x ∉ insert u s.visited_urls ∧
      x ∉ s.urls_to_visit.erase u := by
  simp only [new_internal_links, Finset.mem_sdiff] at hx
  tauto

theorem reach_disjoint {f : String → FetchOutcome} {st : String}
    {s : CrawlState} (h : Reachable f st s) :
    Disjoint s.urls_to_visit s.visited_urls := by
  induction h with
  | refl => simp [initState]
  | tail hsteps hstep ih =>
    cases hstep with
    | visit u hu hnv =>
      rw [Finset.disjoint_left] at ih ⊢
      intro x hx
      simp only [visitStep, Finset.mem_union] at hx
      simp only [visitStep, Finset.mem_insert]
      push_neg
      rcases hx with hx | hx
      · exact ⟨(Finset.mem_erase.mp hx).1, ih (Finset.mem_erase.mp hx).2⟩
      · have h2 := (mem_new_internal hx).2.1
        simp only [Finset.mem_insert] at h2
        push_neg at h2
        exact h2
    | skip u hu hv =>
      rw [Finset.disjoint_left] at ih ⊢
      intro x hx
      exact ih (Finset.mem_of_mem_erase hx)

theorem step_visited_mono {f : String → FetchOutcome} {st : String}
    {s t : CrawlState} (h : Step f st s t) :
    s.visited_urls ⊆ t.visited_urls := by
  cases h with
  | visit u hu hnv =>
    intro x hx
    simp only [visitStep, Finset.mem_insert]
    exact Or.inr hx
  | skip u hu hv => exact Finset.Subset.refl _

theorem reach_fetched {f : String → FetchOutcome} {st : String}
    {s : CrawlState} (h : Reachable f st s) :
    s.fetched_urls.Nodup ∧ ∀ x ∈ s.fetched_urls, x ∈ s.visited_urls := by
  induction h with
  | refl => simp [initState]
  | tail hsteps hstep ih =>
    obtain ⟨hnd, hsub⟩ := ih
    cases hstep with
    | visit u hu hnv =>
      have hu_not := fun hmem => hnv (hsub u hmem)
      constructor
      · simp only [visitStep]
        simp [List.nodup_append, hnd]
        exact hu_not
      · intro x hx
        simp only [visitStep, List.mem_append, List.mem_singleton] at hx
        simp only [visitStep, Finset.mem_insert]
        rcases hx with hx | rfl
        · exact Or.inr (hsub x hx)
        · exact Or.inl rfl
    | skip u hu hv => exact ⟨hnd, hsub⟩

/-- C1: after every loop iteration of every crawl run, the frontier and the
visited set are disjoint, `urls_to_visit ∩ visited_urls = ∅`: links
enqueued in an iteration were first stripped of everything already visited
or already queued. -/
theorem crawl_frontier_visited_disjoint (f : String → FetchOutcome)
    (st : String) (s : CrawlState) (h : Reachable f st s) :
    Disjoint s.urls_to_visit s.visited_urls :=
  reach_disjoint h

theorem crawl_frontier_visited_disjoint_witness :
    Disjoint (visitStep fetchNone "https://a.com" (initState "https://a.com")
        "https://a.com").urls_to_visit
      (visitStep fetchNone "https://a.com" (initState "https://a.com")
        "https://a.com").visited_urls :=
  crawl_frontier_visited_disjoint fetchNone "https://a.com" _
    (Relation.ReflTransGen.tail Relation.ReflTransGen.refl
      (Step.visit (initState "https://a.com") "https://a.com"
        (by simp [initState]) (by simp [initState])))

/-- C2: the visited set only grows across loop iterations, and the fetch
operation `get_links` is invoked on a URL only when that URL was not
previously visited: every new entry of the fetch trace was unvisited at
invocation time, and along any run the fetch trace never repeats a URL. -/
theorem crawl_no_refetch (f : String → FetchOutcome) (st : String) :
    (∀ s t : CrawlState, Step f st s t → s.visited_urls ⊆ t.visited_urls) ∧
    (∀ s t : CrawlState, Step f st s t → ∀ u, u ∈ t.fetched_urls →
      u ∈ s.fetched_urls ∨
        (u ∉ s.visited_urls ∧ t.fetched_urls = s.fetched_urls ++ [u])) ∧
    (∀ s : CrawlState, Reachable f st s → s.fetched_urls.Nodup) := by
  refine ⟨fun s t h => step_visited_mono h, ?_, fun s h => (reach_fetched h).1⟩
  intro s t h u hu
  cases h with
  | visit v hv hnv =>
    simp only [visitStep, List.mem_append, List.mem_singleton] at hu
    rcases hu with hu | rfl
    · exact Or.inl hu
    · exact Or.inr ⟨hnv, rfl⟩
  | skip v hv hvv => exact Or.inl hu

theorem crawl_no_refetch_witness :
    (initState "https://a.com").visited_urls ⊆
      (visitStep fetchNone "https://a.com" (initState "https://a.com")
        "https://a.com").visited_urls ∧
    (initState "https://a.com").fetched_urls.Nodup :=
  ⟨(crawl_no_refetch fetchNone "https://a.com").1 _ _
      (Step.visit (initState "https://a.com") "https://a.com"
        (by simp [initState]) (by simp [initState])),
    (crawl_no_refetch fetchNone "https://a.com").2.2 _
      Relation.ReflTransGen.refl⟩

theorem mem_foldl_processLink_internal (pageUrl baseUrl : String)
    (l : List String) (acc : Finset String × List (String × String))
    (v : String) (hv : v ∈ (l.foldl (processLink pageUrl baseUrl) acc).1) :
    v ∈ acc.1 ∨
      (should_skip_url v = false ∧ is_valid_landing_page v = true ∧
        (urlparse v).netloc = (urlparse baseUrl).netloc) := by
  induction l generalizing acc with
  | nil => exact Or.inl hv
  | cons x xs ih =>
    simp only [List.foldl_cons] at hv
    rcases ih _ hv with hmem | hrest
    · unfold processLink at hmem
      split_ifs at hmem with h1 h2 h3 h4
      · exact Or.inl hmem
      · exact Or.inl hmem
      · simp only [Finset.mem_insert] at hmem
        rcases hmem with rfl | hmem
        · refine Or.inr ⟨by simpa using h1, by simpa using h2, h3⟩
        · exact Or.inl hmem
      · exact Or.inl hmem
      · exact Or.inl hmem
    · exact Or.inr hrest

theorem mem_foldl_processLink_external (pageUrl baseUrl : String)
    (l : List String) (acc : Finset String × List (String × String))
    (p : String × String)
    (hp : p ∈ (l.foldl (processLink pageUrl baseUrl) acc).2) :
    p ∈ acc.2 ∨
      ((urlparse p.1).netloc ≠ (urlparse baseUrl).netloc ∧
        strStartsWith p.1 "http" = true ∧ p.2 = pageUrl) := by
  induction l generalizing acc with
  | nil => exact Or.inl hp
  | cons x xs ih =>
    simp only [List.foldl_cons] at hp
    rcases ih _ hp with hmem | hrest
    · unfold processLink at hmem
      split_ifs at hmem with h1 h2 h3 h4
      · exact Or.inl hmem
      · exact Or.inl hmem
      · exact Or.inl hmem
      · simp only [List.mem_append, List.mem_singleton] at hmem
        rcases hmem with hmem | rfl
        · exact Or.inl hmem
        · exact Or.inr ⟨h3, h4, rfl⟩
      · exact Or.inl hmem
    · exact Or.inr hrest

theorem get_links_failure {f : String → FetchOutcome} {u base : String}
    (hf : f u = FetchOutcome.failure) : get_links f u base = (∅, []) := by
  unfold get_links
  rw [hf]

theorem get_links_success {f : String → FetchOutcome} {u base ct : String}
    {hrefs : List String} (hf : f u = FetchOutcome.success ct hrefs) :
    get_links f u base =
      if !strContainsSub ct "text/html" then (∅, [])
      else hrefs.foldl (processLink u base) (∅, []) := by
  unfold get_links
  rw [hf]

theorem get_links_mem_internal {f : String → FetchOutcome}
    {u base v : String} (hv : v ∈ (get_links f u base).1) :
    should_skip_url v = false ∧ is_valid_landing_page v = true ∧
      (urlparse v).netloc = (urlparse base).netloc := by
  cases hf : f u with
  | failure => rw [get_links_failure hf] at hv; simp at hv
  | success ct hrefs =>
    rw [get_links_success hf] at hv
    cases hct : strContainsSub ct "text/html" with
    | false => simp [hct] at hv
    | true =>
      have hv2 : v ∈ (hrefs.foldl (processLink u base) (∅, [])).1 := by
        simpa [hct] using hv
      rcases mem_foldl_processLink_internal u base hrefs (∅, []) v hv2 with h | h
      · simp at h
      · exact h

theorem get_links_mem_external {f : String → FetchOutcome}
    {u base : String} {p : String × String}
    (hp : p ∈ (get_links f u base).2) :
    (urlparse p.1).netloc ≠ (urlparse base).netloc ∧
      strStartsWith p.1 "http" = true ∧ p.2 = u := by
  cases hf : f u with
  | failure => rw [get_links_failure hf] at hp; simp at hp
  | success ct hrefs =>
    rw [get_links_success hf] at hp
    cases hct : strContainsSub ct "text/html" with
    | false => simp [hct] at hp
    | true =>
      have hp2 : p ∈ (hrefs.foldl (processLink u base) (∅, [])).2 := by
        simpa [hct] using hp
      rcases mem_foldl_processLink_external u base hrefs (∅, []) p hp2 with h | h
      · simp at h
      · exact h

theorem reach_externals {f : String → FetchOutcome} {st : String}
    {s : CrawlState} (h : Reachable f st s) :
    ∀ p ∈ s.external_links,
      (urlparse p.1).netloc ≠ (urlparse st).netloc := by
  induction h with
  | refl => simp [initState]
  | tail hsteps hstep ih =>
    cases hstep with
    | visit u hu hnv =>
      intro p hp
      simp only [visitStep, List.mem_append] at hp
      rcases hp with hp | hp
      · exact ih p hp
      · exact (get_links_mem_external hp).1
    | skip u hu hv => exact ih

/-- Oracle of a one-page site whose only page links to the off-site URL
`https://b.com/x`. -/
def fetchOneExternal : String → FetchOutcome :=
  fun _ => FetchOutcome.success "text/html" ["https://b.com/x"]

/-- C3: every record ever appended to the external-links list has a first
component whose host (netloc) differs from the host of the seed URL; no
internal-host URL is ever recorded as an external link. -/
theorem external_links_have_external_host (f : String → FetchOutcome)
    (st : String) (s : CrawlState) (h : Reachable f st s) :
    ∀ p ∈ s.external_links,
      (urlparse p.1).netloc ≠ (urlparse st).netloc :=
  reach_externals h

theorem external_links_have_external_host_witness :
    (urlparse (("https://b.com/x", "https://a.com") : String × String).1).netloc ≠
      (urlparse "https://a.com").netloc :=
  external_links_have_external_host fetchOneExternal "https://a.com" _
    (Relation.ReflTransGen.tail Relation.ReflTransGen.refl
      (Step.visit (initState "https://a.com") "https://a.com"
        (by simp [initState]) (by simp [initState])))
    ("https://b.com/x", "https://a.com") (by decide)

theorem reach_total {f : String → FetchOutcome} {st : String}
    {s : CrawlState} (h : Reachable f st s) :
    s.total_urls_discovered = s.visited_urls.card + s.urls_to_visit.card := by
  induction h with
  | refl => simp [initState]
  | tail hsteps hstep ih =>
    rename_i b c
    have hd := reach_disjoint hsteps
    cases hstep with
    | visit u hu hnv =>
      simp only [visitStep]
      have hc1 := Finset.card_insert_of_not_mem hnv
      have hdisj : Disjoint (b.urls_to_visit.erase u)
          (new_internal_links f st b u) := Finset.sdiff_disjoint.symm
      have hc2 := Finset.card_union_of_disjoint hdisj
      have hc3 := Finset.card_erase_of_mem hu
      have hpos : 0 < b.urls_to_visit.card := Finset.card_pos.mpr ⟨u, hu⟩
      omega
    | skip u hu hv =>
      exact (Finset.disjoint_left.mp hd hu hv).elim

/-- C5: the running counter `total_urls_discovered` (initialized to 1 for
the seed and advanced by the number of newly enqueued internal links)
equals `|Visited| + |Frontier|` after every iteration; at the report point
inside an iteration visiting `u` — visited already extended by `u`,
frontier already popped, counter not yet advanced — it therefore equals
`|Visited ∪ Frontier|`, so the reported ratio is
`|Visited| / |Visited ∪ Frontier|` there. -/
theorem progress_total_eq_discovered (f : String → FetchOutcome)
    (st : String) (s : CrawlState) (h : Reachable f st s) :
    s.total_urls_discovered = s.visited_urls.card + s.urls_to_visit.card ∧
    ∀ u ∈ s.urls_to_visit, u ∉ s.visited_urls →
      s.total_urls_discovered =
        (insert u s.visited_urls ∪ s.urls_to_visit.erase u).card := by
  refine ⟨reach_total h, fun u hu hnv => ?_⟩
  have hd := reach_disjoint h
  have htot := reach_total h
  have hdisj2 : Disjoint (insert u s.visited_urls) (s.urls_to_visit.erase u) := by
    rw [Finset.disjoint_left]
    intro x hx hx2
    rcases Finset.mem_insert.mp hx with rfl | hxv
    · exact (Finset.mem_erase.mp hx2).1 rfl
    · exact Finset.disjoint_left.mp hd (Finset.mem_of_mem_erase hx2) hxv
  rw [Finset.card_union_of_disjoint hdisj2, Finset.card_insert_of_not_mem hnv,
    Finset.card_erase_of_mem hu, htot]
  have hpos : 0 < s.urls_to_visit.card := Finset.card_pos.mpr ⟨u, hu⟩
  omega

theorem progress_total_eq_discovered_witness :
    (initState "https://a.com").total_urls_discovered =
      (initState "https://a.com").visited_urls.card +
        (initState "https://a.com").urls_to_visit.card ∧
    (initState "https://a.com").total_urls_discovered =
      (insert "https://a.com" (initState "https://a.com").visited_urls ∪
        (initState "https://a.com").urls_to_visit.erase "https://a.com").card :=
  ⟨(progress_total_eq_discovered fetchNone "https://a.com" _
      Relation.ReflTransGen.refl).1,
    (progress_total_eq_discovered fetchNone "https://a.com" _
      Relation.ReflTransGen.refl).2 "https://a.com"
      (by simp [initState]) (by simp [initState])⟩

/-- Measure showing the crawl loop terminates over a finite URL universe:
unvisited universe URLs dominate, frontier size breaks ties. -/
def crawlMeasure (U : Finset String) (s : CrawlState) : Nat :=
  (U \ s.visited_urls).card * (U.card + 1) + s.urls_to_visit.card

theorem reach_frontier_subset {f : String → FetchOutcome} {st : String}
    {U : Finset String} (hstart : st ∈ U)
    (hcl : ∀ u v : String, v ∈ (get_links f u st).1 → v ∈ U)
    {s : CrawlState} (h : Reachable f st s) :
    s.urls_to_visit ⊆ U := by
  induction h with
  | refl => simpa [initState, Finset.singleton_subset_iff] using hstart
  | tail hsteps hstep ih =>
    cases hstep with
    | visit u hu hnv =>
      intro x hx
      simp only [visitStep, Finset.mem_union] at hx
      rcases hx with hx | hx
      · exact ih (Finset.mem_of_mem_erase hx)
      · exact hcl u x (mem_new_internal hx).1
    | skip u hu hv =>
      intro x hx
      exact ih (Finset.mem_of_mem_erase hx)

theorem step_measure_decreasing {f : String → FetchOutcome} {st : String}
    {U : Finset String}
    (hcl : ∀ u v : String, v ∈ (get_links f u st).1 → v ∈ U)
    {s t : CrawlState} (hsub : s.urls_to_visit ⊆ U)
    (hstep : Step f st s t) : crawlMeasure U t < crawlMeasure U s := by
  cases hstep with
  | visit u hu hnv =>
    have huU : u ∈ U := hsub hu
    have h3 : u ∈ U \ s.visited_urls := Finset.mem_sdiff.mpr ⟨huU, hnv⟩
    have h5 : 0 < (U \ s.visited_urls).card := Finset.card_pos.mpr ⟨u, h3⟩
    have h4 : (U \ insert u s.visited_urls).card + 1 =
        (U \ s.visited_urls).card := by
      rw [Finset.sdiff_insert, Finset.card_erase_of_mem h3]
      omega
    have h2 : (visitStep f st s u).urls_to_visit.card ≤ U.card := by
      apply Finset.card_le_card
      intro x hx
      simp only [visitStep, Finset.mem_union] at hx
      rcases hx with hx | hx
      · exact hsub (Finset.mem_of_mem_erase hx)
      · exact hcl u x (mem_new_internal hx).1
    simp only [visitStep] at h2
    simp only [crawlMeasure, visitStep]
    rw [← h4, Nat.add_mul, Nat.one_mul]
    generalize (U \ insert u s.visited_urls).card * (U.card + 1) = P
    omega
  | skip u hu hv =>
    simp only [crawlMeasure]
    have hlt : (s.urls_to_visit.erase u).card < s.urls_to_visit.card :=
      Finset.card_erase_lt_of_mem hu
    generalize (U \ s.visited_urls).card * (U.card + 1) = P
    omega

theorem no_strict_descent (g : ℕ → ℕ) (hg : ∀ n, g (n + 1) < g n) : False := by
  have h : ∀ n, g n + n ≤ g 0 := by
    intro n
    induction n with
    | zero => omega
    | succ k ih =>
      have := hg k
      omega
  have := h (g 0 + 1)
  omega

theorem seq_reachable {f : String → FetchOutcome} {st : String}
    (seq : ℕ → CrawlState) (h0 : seq 0 = initState st)
    (hstep : ∀ n, Step f st (seq n) (seq (n + 1))) :
    ∀ n, Reachable f st (seq n) := by
  intro n
  induction n with
  | zero =>
    rw [h0]
    exact Relation.ReflTransGen.refl
  | succ k ih => exact Relation.ReflTransGen.tail ih (hstep k)

theorem step_iff_frontier_nonempty (f : String → FetchOutcome) (st : String)
    (s : CrawlState) : (∃ t, Step f st s t) ↔ s.urls_to_visit.Nonempty := by
  constructor
  · rintro ⟨t, ht⟩
    cases ht with
    | visit u hu hnv => exact ⟨u, hu⟩
    | skip u hu hv => exact ⟨u, hu⟩
  · rintro ⟨u, hu⟩
    by_cases hv : u ∈ s.visited_urls
    · exact ⟨_, Step.skip s u hu hv⟩
    · exact ⟨_, Step.visit s u hu hv⟩

/-- C4: over a finite universe of URLs containing the seed and closed
under internal-link discovery, the crawl loop admits no infinite run from
the entry state, and a state allows a further iteration exactly when its
frontier is nonempty: the loop terminates precisely when the frontier
empties, with no depth or URL-count cap cutting it short. -/
theorem crawl_terminates (f : String → FetchOutcome) (st : String)
    (U : Finset String) (hstart : st ∈ U)
    (hcl : ∀ u v : String, v ∈ (get_links f u st).1 → v ∈ U) :
    (∀ seq : ℕ → CrawlState, seq 0 = initState st →
      (∀ n, Step f st (seq n) (seq (n + 1))) → False) ∧
    (∀ s : CrawlState, (∃ t, Step f st s t) ↔ s.urls_to_visit.Nonempty) := by
  refine ⟨fun seq h0 hstep => ?_, fun s => step_iff_frontier_nonempty f st s⟩
  have hreach := seq_reachable seq h0 hstep
  exact no_strict_descent (fun n => crawlMeasure U (seq n)) (fun n =>
    step_measure_decreasing hcl
      (reach_frontier_subset hstart hcl (hreach n)) (hstep n))

theorem crawl_terminates_witness :
    (∀ seq : ℕ → CrawlState, seq 0 = initState "https://a.com" →
      (∀ n, Step fetchNone "https://a.com" (seq n) (seq (n + 1))) → False) ∧
    (∀ s : CrawlState, (∃ t, Step fetchNone "https://a.com" s t) ↔
      s.urls_to_visit.Nonempty) :=
  crawl_terminates fetchNone "https://a.com" {"https://a.com"}
    (by simp)
    (fun u v hv => by rw [get_links_failure rfl] at hv; simp at hv)

/-- Oracle of a host whose page `https://a.com/t` answers with plain text
and whose every other page fails to fetch. -/
def fetchPlain : String → FetchOutcome :=
  fun u =>
    if u = "https://a.com/t" then FetchOutcome.success "text/plain" []
    else FetchOutcome.failure

/-- A crawl state holding two pending internal URLs. -/
def twoFrontierState : CrawlState :=
  { urls_to_visit := {"https://a.com/p", "https://a.com/q"}
    visited_urls := ∅
    external_links := []
    total_urls_discovered := 2
    fetched_urls := [] }

/-- C9: per-URL fetch failures are contained in their iteration: a raised
request (network error, timeout or non-2xx status) makes `get_links`
return no links, and a successful fetch declaring a non-HTML content type
likewise yields the empty result rather than an error; visiting such a URL
still records it as visited, enqueues nothing, appends nothing to the
external links, and the loop can continue exactly on the remaining
frontier entries. -/
theorem fetch_failure_contained (f : String → FetchOutcome) (st : String) :
    (∀ u base : String, f u = FetchOutcome.failure →
      get_links f u base = (∅, [])) ∧
    (∀ (u base ct : String) (hrefs : List String),
      f u = FetchOutcome.success ct hrefs →
      strContainsSub ct "text/html" = false →
      get_links f u base = (∅, [])) ∧
    (∀ (s : CrawlState) (u : String), u ∈ s.urls_to_visit →
      u ∉ s.visited_urls → get_links f u st = (∅, []) →
      (visitStep f st s u).visited_urls = insert u s.visited_urls ∧
      (visitStep f st s u).urls_to_visit = s.urls_to_visit.erase u ∧
      (visitStep f st s u).external_links = s.external_links ∧
      ((s.urls_to_visit.erase u).Nonempty →
        ∃ t, Step f st (visitStep f st s u) t)) := by
  refine ⟨fun u base hf => get_links_failure hf, ?_, ?_⟩
  · intro u base ct hrefs hf hct
    rw [get_links_success hf, hct]
    simp
  · intro s u hu hnv hempty
    refine ⟨rfl, ?_, ?_, ?_⟩
    · simp only [visitStep, new_internal_links, hempty]
      simp
    · simp only [visitStep, hempty]
      simp
    · intro hne
      rw [step_iff_frontier_nonempty]
      simp only [visitStep, new_internal_links, hempty]
      simpa using hne

theorem fetch_failure_contained_witness :
    get_links fetchPlain "https://a.com/x" "https://a.com" = (∅, []) ∧
    get_links fetchPlain "https://a.com/t" "https://a.com" = (∅, []) ∧
    ((visitStep fetchPlain "https://a.com" twoFrontierState
        "https://a.com/p").visited_urls =
      insert "https://a.com/p" twoFrontierState.visited_urls ∧
    (visitStep fetchPlain "https://a.com" twoFrontierState
        "https://a.com/p").urls_to_visit =
      twoFrontierState.urls_to_visit.erase "https://a.com/p" ∧
    (visitStep fetchPlain "https://a.com" twoFrontierState
        "https://a.com/p").external_links =
      twoFrontierState.external_links ∧
    ((twoFrontierState.urls_to_visit.erase "https://a.com/p").Nonempty →
      ∃ t, Step fetchPlain "https://a.com"
        (visitStep fetchPlain "https://a.com" twoFrontierState
          "https://a.com/p") t)) :=
  ⟨(fetch_failure_contained fetchPlain "https://a.com").1
      "https://a.com/x" "https://a.com" (by decide),
    (fetch_failure_contained fetchPlain "https://a.com").2.1
      "https://a.com/t" "https://a.com" "text/plain" [] (by decide) (by decide),
    (fetch_failure_contained fetchPlain "https://a.com").2.2
      twoFrontierState "https://a.com/p" (by decide) (by decide)
      (get_links_failure (by decide))⟩

theorem reach_frontier_filters {f : String → FetchOutcome} {st : String}
    {s : CrawlState} (h : Reachable f st s) :
    ∀ u ∈ s.urls_to_visit, u = st ∨
      (should_skip_url u = false ∧ is_valid_landing_page u = true) := by
  induction h with
  | refl =>
    intro u hu
    simp only [initState, Finset.mem_singleton] at hu
    exact Or.inl hu
  | tail hsteps hstep ih =>
    cases hstep with
    | visit v hv hnv =>
      intro u hu
      simp only [visitStep, Finset.mem_union] at hu
      rcases hu with hu | hu
      · exact ih u (Finset.mem_of_mem_erase hu)
      · have h1 := get_links_mem_internal (mem_new_internal hu).1
        exact Or.inr ⟨h1.1, h1.2.1⟩
    | skip v hv hvv =>
      intro u hu
      exact ih u (Finset.mem_of_mem_erase hu)

/-- Oracle of a one-page site whose page links to the same-host URL
`https://s.com/p2`. -/
def fetchSiteP2 : String → FetchOutcome :=
  fun _ => FetchOutcome.success "text/html" ["https://s.com/p2"]

/-- C10: every frontier URL other than the seed passes both classifier
filters (it is not skip-extension filtered and is a valid landing page),
because filtering happens only inside link extraction; the seed itself
enters the frontier and is visited and fetched unconditionally, whatever
its shape. -/
theorem frontier_filtered_seed_unconditional (f : String → FetchOutcome)
    (st : String) :
    (∀ s : CrawlState, Reachable f st s → ∀ u ∈ s.urls_to_visit, u ≠ st →
      should_skip_url u = false ∧ is_valid_landing_page u = true) ∧
    (Step f st (initState st) (visitStep f st (initState st) st) ∧
      st ∈ (visitStep f st (initState st) st).visited_urls ∧
      (visitStep f st (initState st) st).fetched_urls = [st]) := by
  constructor
  · intro s h u hu hne
    rcases reach_frontier_filters h u hu with rfl | hok
    · exact (hne rfl).elim
    · exact hok
  · refine ⟨Step.visit _ _ (by simp [initState]) (by simp [initState]), ?_, ?_⟩
    · simp [visitStep]
    · simp [visitStep, initState]

theorem frontier_filtered_seed_unconditional_witness :
    (should_skip_url "https://s.com/p2" = false ∧
      is_valid_landing_page "https://s.com/p2" = true) ∧
    "https://x.com/et_blog.pdf#f" ∈
      (visitStep fetchNone "https://x.com/et_blog.pdf#f"
        (initState "https://x.com/et_blog.pdf#f")
        "https://x.com/et_blog.pdf#f").visited_urls :=
  ⟨(frontier_filtered_seed_unconditional fetchSiteP2 "https://s.com/").1 _
      (Relation.ReflTransGen.tail Relation.ReflTransGen.refl
        (Step.visit (initState "https://s.com/") "https://s.com/"
          (by simp [initState]) (by simp [initState])))
      "https://s.com/p2" (by decide) (by decide),
    (frontier_filtered_seed_unconditional fetchNone
      "https://x.com/et_blog.pdf#f").2.2.1⟩

end Crawler
